import Mathlib

/-!
Verification of the versioned state engine of `state-sdk`:
the timeline (patch-based undo/redo), the branch manager
(fork/switch/diff/delete), the action inspector log, and the
structural diff utility.

Source files embedded here:
- `packages/core/src/utils.ts` (`deepDiff`, `extractActionName`)
- `packages/core/src/middleware/inspector.ts` (action log)
- `packages/core/src/middleware/branching.ts` (timeline + branching
  middleware, `createNoopTemporal`, `restoreBranch`, `branchApi`)

The undo/redo engine itself is the external `travels` npm package
(not part of this repository); it is modelled from the specification
(§4.1 Timeline Engine) where noted.
-/

namespace StateSdk

/-- JSON-like data values, the serializable subset of store state
(`DataState`).  Arrays carry a reference tag `ref`: JavaScript
compares arrays with identity-style equality (`Object.is`), so two
structurally equal arrays at different heap locations are unequal;
the tag models the heap location.  Plain objects need no tag because
`deepDiff` always recurses into object/object pairs and never asks
for their identity. -/
inductive Value where
  | vNull : Value
  | vBool (b : Bool) : Value
  | vNum (n : Int) : Value
  | vStr (s : String) : Value
  | vArr (ref : Nat) (elems : List Value) : Value
  | vObj (fields : List (String × Value)) : Value
deriving Repr

mutual

/-- Boolean structural equality on values (helper for the
`DecidableEq` instance; on arrays it also compares the reference
tags, matching `Object.is` on a consistent heap). -/
def Value.beq : Value → Value → Bool
  | .vNull, .vNull => true
  | .vBool x, .vBool y => x == y
  | .vNum x, .vNum y => x == y
  | .vStr x, .vStr y => x == y
  | .vArr r es, .vArr r' es' => r == r' && Value.beqList es es'
  | .vObj fs, .vObj fs' => Value.beqFields fs fs'
  | _, _ => false

/-- Elementwise `Value.beq` on lists. -/
def Value.beqList : List Value → List Value → Bool
  | [], [] => true
  | x :: xs, y :: ys => Value.beq x y && Value.beqList xs ys
  | _, _ => false

/-- Elementwise `Value.beq` on association lists. -/
def Value.beqFields : List (String × Value) → List (String × Value) → Bool
  | [], [] => true
  | (k, v) :: xs, (k', v') :: ys => k == k' && Value.beq v v' && Value.beqFields xs ys
  | _, _ => false

end

theorem Value.eq_of_beq_all :
    (∀ a b : Value, Value.beq a b = true → a = b)
    ∧ (∀ xs ys : List (String × Value), Value.beqFields xs ys = true → xs = ys)
    ∧ (∀ xs ys : List Value, Value.beqList xs ys = true → xs = ys) := by
  refine Value.beq.mutual_induct
    (fun a b => Value.beq a b = true → a = b)
    (fun xs ys => Value.beqFields xs ys = true → xs = ys)
    (fun xs ys => Value.beqList xs ys = true → xs = ys)
    ?_ ?_ ?_ ?_ ?_ ?_ ?_ ?_ ?_ ?_ ?_ ?_ ?_
  · intro _; rfl
  · intro x y h; simp [Value.beq] at h; rw [h]
  · intro x y h; simp [Value.beq] at h; rw [h]
  · intro x y h; simp [Value.beq] at h; rw [h]
  · intro r es r' es' ih h
    simp [Value.beq] at h
    rw [h.1, ih h.2]
  · intro fs fs' ih h
    simp only [Value.beq] at h
    rw [ih h]
  · intro t x h1 h2 h3 h4 h5 h6
    cases t <;> cases x <;> intro hb <;>
      first
        | exact (h1 rfl rfl).elim
        | exact (h2 _ _ rfl rfl).elim
        | exact (h3 _ _ rfl rfl).elim
        | exact (h4 _ _ rfl rfl).elim
        | exact (h5 _ _ _ _ rfl rfl).elim
        | exact (h6 _ _ rfl rfl).elim
        | simp [Value.beq] at hb
  · intro _; rfl
  · intro x xs y ys ih1 ih2 h
    simp only [Value.beqList, Bool.and_eq_true] at h
    rw [ih1 h.1, ih2 h.2]
  · intro t x h1 h2
    rcases t with _ | ⟨v, xs⟩ <;> rcases x with _ | ⟨w, ys⟩ <;> intro hb
    · exact (h1 rfl rfl).elim
    · simp [Value.beqList] at hb
    · simp [Value.beqList] at hb
    · exact (h2 v xs w ys rfl rfl).elim
  · intro _; rfl
  · intro k v xs k' v' ys ih1 ih2 h
    simp only [Value.beqFields, Bool.and_eq_true, beq_iff_eq] at h
    rw [h.1.1, ih1 h.1.2, ih2 h.2]
  · intro t x h1 h2
    rcases t with _ | ⟨⟨k, v⟩, xs⟩ <;> rcases x with _ | ⟨⟨k', v'⟩, ys⟩ <;> intro hb
    · exact (h1 rfl rfl).elim
    · simp [Value.beqFields] at hb
    · simp [Value.beqFields] at hb
    · exact (h2 k v xs k' v' ys rfl rfl).elim

theorem Value.beq_of_eq_all :
    (∀ a b : Value, a = b → Value.beq a b = true)
    ∧ (∀ xs ys : List (String × Value), xs = ys → Value.beqFields xs ys = true)
    ∧ (∀ xs ys : List Value, xs = ys → Value.beqList xs ys = true) := by
  refine Value.beq.mutual_induct
    (fun a b => a = b → Value.beq a b = true)
    (fun xs ys => xs = ys → Value.beqFields xs ys = true)
    (fun xs ys => xs = ys → Value.beqList xs ys = true)
    ?_ ?_ ?_ ?_ ?_ ?_ ?_ ?_ ?_ ?_ ?_ ?_ ?_
  · intro _; rfl
  · intro x y h; injection h with h; rw [h]; simp [Value.beq]
  · intro x y h; injection h with h; rw [h]; simp [Value.beq]
  · intro x y h; injection h with h; rw [h]; simp [Value.beq]
  · intro r es r' es' ih h
    injection h with h1 h2
    simp [Value.beq, h1, ih h2]
  · intro fs fs' ih h
    injection h with h1
    simp only [Value.beq]
    exact ih h1
  · intro t x h1 h2 h3 h4 h5 h6 he
    subst he
    cases t
    · exact (h1 rfl rfl).elim
    · exact (h2 _ _ rfl rfl).elim
    · exact (h3 _ _ rfl rfl).elim
    · exact (h4 _ _ rfl rfl).elim
    · exact (h5 _ _ _ _ rfl rfl).elim
    · exact (h6 _ _ rfl rfl).elim
  · intro _; rfl
  · intro x xs y ys ih1 ih2 h
    injection h with h1 h2
    simp only [Value.beqList, Bool.and_eq_true]
    exact ⟨ih1 h1, ih2 h2⟩
  · intro t x h1 h2 he
    subst he
    cases t
    · exact (h1 rfl rfl).elim
    · exact (h2 _ _ _ _ rfl rfl).elim
  · intro _; rfl
  · intro k v xs k' v' ys ih1 ih2 h
    injection h with h1 h2
    injection h1 with hk hv
    simp only [Value.beqFields, Bool.and_eq_true, beq_iff_eq]
    exact ⟨⟨hk, ih1 hv⟩, ih2 h2⟩
  · intro t x h1 h2 he
    subst he
    cases t
    · exact (h1 rfl rfl).elim
    · rename_i hd tl
      exact (h2 hd.1 hd.2 tl hd.1 hd.2 tl (by rfl) (by rfl)).elim

instance : DecidableEq Value := fun a b =>
  decidable_of_iff (Value.beq a b = true)
    ⟨Value.eq_of_beq_all.1 a b, Value.beq_of_eq_all.1 a b⟩

/-- JavaScript property lookup on an object literal: the value of the
first binding of key `k` (object keys are unique in JS, so first =
only). -/
def lookupKey (k : String) : List (String × Value) → Option Value
  | [] => none
  | (k', v) :: rest => if k' = k then some v else lookupKey k rest

/-- One entry of the structural diff produced by `deepDiff`
(utils.ts): `added`/`removed` carry the full path and the value,
`changed` carries the full path plus `from`/`to`. -/
inductive DiffEntry where
  | added (path : List String) (value : Value) : DiffEntry
  | removed (path : List String) (value : Value) : DiffEntry
  | changed (path : List String) (fromVal toVal : Value) : DiffEntry
deriving Repr, DecidableEq

/-- The path component of a diff entry. -/
def DiffEntry.path : DiffEntry → List String
  | .added p _ => p
  | .removed p _ => p
  | .changed p _ _ => p

/-- The `added` entries contributed by keys of `b` that are absent
from `a` (utils.ts `deepDiff`, the `!inA && inB` branch; with unique
keys these are exactly the members of the JS key set
`Set([...keys(objA), ...keys(objB)])` beyond `keys(objA)`). -/
def addedEntries (pp : List String) (a b : List (String × Value)) : List DiffEntry :=
  (b.filter (fun kv => (lookupKey kv.1 a).isNone)).map
    (fun kv => .added (pp ++ [kv.1]) kv.2)

/-- The diff entries contributed by the keys of `a` (utils.ts
`deepDiff` loop over `allKeys`, restricted to keys present in
`objA`): `removed` when the key is absent from `b`; a recursive diff
when both values are non-null non-array objects; otherwise a
`changed` entry exactly when the two values are not `Object.is`
equal.  `Object.is` is rendered as decidable equality on `Value`
(identity of array reference tags included). -/
def diffGo (pp : List String) (a b : List (String × Value)) : List DiffEntry :=
  match a with
  | [] => []
  | (k, va) :: rest =>
    (match lookupKey k b with
     | none => [.removed (pp ++ [k]) va]
     | some vb =>
       match va, vb with
       | .vObj fa, .vObj fb =>
         diffGo (pp ++ [k]) fa fb ++ addedEntries (pp ++ [k]) fa fb
       | _, _ => if va = vb then [] else [.changed (pp ++ [k]) va vb])
    ++ diffGo pp rest b
termination_by sizeOf a
decreasing_by
  all_goals simp_wf
  all_goals omega

/-- Result shape of utils.ts `deepDiff`: three lists, in
encounter order. -/
structure DiffResult where
  added : List (List String × Value)
  removed : List (List String × Value)
  changed : List (List String × Value × Value)
deriving Repr, DecidableEq

/-- utils.ts `deepDiff(objA, objB, parentPath)`: recursive structural
diff.  `allKeys` iterates `objA`'s keys first, then the keys only in
`objB` (JS `Set` insertion order), so the entry stream is
`diffGo ++ addedEntries`; the stream is then split into the three
result arrays, preserving encounter order exactly as the source's
`push` calls do. -/
def deepDiff (a b : List (String × Value)) (parentPath : List String := []) : DiffResult :=
  let es := diffGo parentPath a b ++ addedEntries parentPath a b
  { added := es.filterMap (fun e => match e with | .added p v => some (p, v) | _ => none)
    removed := es.filterMap (fun e => match e with | .removed p v => some (p, v) | _ => none)
    changed := es.filterMap (fun e => match e with | .changed p x y => some (p, x, y) | _ => none) }

/-- Whether both values are non-null, non-array objects — the
condition under which utils.ts `deepDiff` recurses instead of
comparing directly (`typeof v === 'object' && v !== null &&
!Array.isArray(v)` on both sides). -/
def bothPlainObjects : Value → Value → Prop
  | .vObj _, .vObj _ => True
  | _, _ => False

instance (va vb : Value) : Decidable (bothPlainObjects va vb) := by
  cases va <;> cases vb <;>
    first
      | exact isTrue trivial
      | exact isFalse (fun h => h)

/-- The argument of a `set()` call as the inspector middleware
receives it: either a function (mutator callback, with its `name`
property, `""` when anonymous) or a plain value (partial-merge
object, or a primitive). -/
inductive SetArg where
  | fn (name : String) : SetArg
  | val (v : Value) : SetArg
deriving Repr, DecidableEq

/-- JavaScript `Object.keys`: field names of an object in declaration
order, index strings for an array, `[]` for primitives. -/
def jsKeys : Value → List String
  | .vObj fs => fs.map Prod.fst
  | .vArr _ es => (List.range es.length).map toString
  | _ => []

/-- JavaScript `typeof v === 'object' && v !== null`. -/
def isObjectNonNull : Value → Bool
  | .vObj _ => true
  | .vArr _ _ => true
  | _ => false

/-- utils.ts `extractActionName(partial)`: the function's `name` (or
`"anonymous"` when empty) for a function argument; `"set(<keys>)"`
for a non-null object with at least one key; `"set()"` otherwise. -/
def extractActionName : SetArg → String
  | .fn name => if name = "" then "anonymous" else name
  | .val v =>
    if isObjectNonNull v then
      let ks := jsKeys v
      if ks.length > 0 then "set(" ++ String.intercalate ", " ks ++ ")" else "set()"
    else "set()"

/-- inspector.ts `MAX_LOG_ENTRIES`: cap of the action log. -/
def MAX_LOG_ENTRIES : Nat := 200

/-- inspector.ts `wrappedSet` log maintenance: push the new entry,
then `shift()` the oldest entry off when the length exceeds
`MAX_LOG_ENTRIES`.  Generic in the entry type: the source pushes
`ActionLogEntry` records. -/
def logPush {α : Type} (log : List α) (e : α) : List α :=
  let l := log ++ [e]
  if l.length > MAX_LOG_ENTRIES then l.tail else l

/-- A sequence of mutations observed by the inspector, applied in
order to the action log (one `wrappedSet` call each). -/
def logPushAll {α : Type} (log : List α) (es : List α) : List α :=
  es.foldl logPush log

/-- The noop temporal API installed by the timeline middleware when
`enabled: false` (branching.ts `createNoopTemporal`): every
operation is a function that performs no state change, `canBack` and
`canForward` are constantly false, `position` is 0, `getHistory`
returns `[]`, and the patch log is empty.  State-changing members
are embedded as (state → state) functions; the source bodies are
empty, i.e. the identity on the store state. -/
structure NoopTemporal (St : Type) where
  back : Nat → St → St
  forward : Nat → St → St
  go : Nat → St → St
  reset : St → St
  canBack : Bool
  canForward : Bool
  position : Nat
  getHistory : List St

/-- branching.ts `createNoopTemporal()`. -/
def createNoopTemporal (St : Type) : NoopTemporal St :=
  { back := fun _ s => s
    forward := fun _ s => s
    go := fun _ s => s
    reset := fun s => s
    canBack := false
    canForward := false
    position := 0
    getHistory := [] }

/-- Modelled from the spec: the `travels` library's `PatchPair` (§3) —
a forward/inverse edit-script pair between two states.  The library
itself (npm package `travels`) is not part of this repository; per
the spec's invariant, applying `forward` to the pre-state yields the
post-state and applying `inverse` to the post-state yields the
pre-state, so the pair is abstracted by the two states it
connects. -/
structure PatchPair (St : Type) where
  pre : St
  post : St
deriving Repr, DecidableEq

/-- Modelled from the spec: the state of one `travels` engine
instance (§3 TimelineLog, §4.1 Timeline Engine): the live data
`state`, the ordered patch-pair log, the `position` cursor
(`0 ≤ position ≤ patches.length`), and the `maxHistory` /
`autoArchive` construction options. -/
structure Travels (St : Type) where
  state : St
  patches : List (PatchPair St)
  position : Nat
  maxHistory : Nat
  autoArchive : Bool
deriving Repr, DecidableEq

/-- Modelled from the spec: `new Travels(initialState, {maxHistory,
autoArchive})` as the timeline middleware constructs it
(branching.ts line 368): empty patch log, position 0. -/
def Travels.init (s0 : St) (maxHistory : Nat) (autoArchive : Bool) : Travels St :=
  { state := s0, patches := [], position := 0, maxHistory := maxHistory, autoArchive := autoArchive }

/-- Modelled from the spec (§4.1 `back`/`forward`/`go`): the state
reached from the current position by replaying inverse patches down
to `p` (then the state is the pre-state of pair `p`) or forward
patches up to `p` (then it is the post-state of pair `p - 1`).  The
fallback branches are never reached for positions clamped to
`[0, patches.length]`. -/
def Travels.stateAtPos (t : Travels St) (p : Nat) : St :=
  if p < t.position then
    match t.patches[p]? with
    | some pp => pp.pre
    | none => t.state
  else if t.position < p then
    match t.patches[p - 1]? with
    | some pp => pp.post
    | none => t.state
  else t.state

/-- Modelled from the spec (§4.1 `go`): absolute jump, clamped to the
valid range `[0, patches.length]`, reconstructing the state by patch
replay. -/
def Travels.go (t : Travels St) (p : Nat) : Travels St :=
  let target := min p t.patches.length
  { t with position := target, state := t.stateAtPos target }

/-- Modelled from the spec (§4.1 `back(steps)`): move the cursor back
by `steps`, clamped at 0. -/
def Travels.back (t : Travels St) (steps : Nat) : Travels St :=
  t.go (t.position - steps)

/-- Modelled from the spec (§4.1 `forward(steps)`). -/
def Travels.forward (t : Travels St) (steps : Nat) : Travels St :=
  t.go (t.position + steps)

/-- Modelled from the spec (§4.1 `reset()` = `go(0)`). -/
def Travels.reset (t : Travels St) : Travels St :=
  t.go 0

/-- Modelled from the spec: `canBack() ⇔ position > 0`. -/
def Travels.canBack (t : Travels St) : Bool :=
  t.position > 0

/-- Modelled from the spec: `canForward() ⇔ position < length(log)`. -/
def Travels.canForward (t : Travels St) : Bool :=
  t.position < t.patches.length

/-- Modelled from the spec (§4.1 `getHistory()`): every state from
position 0 through the log's end. -/
def Travels.getHistory (t : Travels St) : List St :=
  (List.range (t.patches.length + 1)).map t.stateAtPos

/-- Modelled from the spec (§4.1 `mutate`, the library's
`setState`): compute the post-state, and only if a change actually
occurred, truncate the redo history beyond `position`, append the
new patch pair and advance the cursor; when the log would exceed
`maxHistory`, drop the oldest entry and leave the cursor in place
(append + decrement).  The live data becomes the post-state. -/
def Travels.setState [DecidableEq St] (t : Travels St) (f : St → St) : Travels St :=
  let post := f t.state
  if post = t.state then t
  else
    let kept := t.patches.take t.position
    let ps := kept ++ [{ pre := t.state, post := post }]
    if ps.length > t.maxHistory then
      { t with state := post, patches := ps.tail, position := t.position }
    else
      { t with state := post, patches := ps, position := t.position + 1 }

/-- branching.ts `travelSet` (timeline middleware, lines 334-351):
every `set()` call — mutator callback, full replacement
(`replace=true`), or partial merge (`Object.assign` onto a draft) —
is routed to `travels.setState` as a state updater. -/
def travelSet [DecidableEq St] (t : Travels St) (u : St → St) : Travels St :=
  t.setState u

/-- A sequence of `set()` mutations applied to a travels engine in
order. -/
def mutateSeq [DecidableEq St] (t : Travels St) : List (St → St) → Travels St
  | [] => t
  | f :: fs => mutateSeq (t.setState f) fs

/-- Every mutation in the sequence changes the data state at the
point it is applied (so `travels` records a patch pair for each). -/
def ChangingSeq [DecidableEq St] (t : Travels St) : List (St → St) → Prop
  | [] => True
  | f :: fs => f t.state ≠ t.state ∧ ChangingSeq (t.setState f) fs

/-- The patch pairs recorded by a changing mutation sequence starting
from state `s`. -/
def chainPairs (s : St) : List (St → St) → List (PatchPair St)
  | [] => []
  | f :: fs => { pre := s, post := f s } :: chainPairs (f s) fs

/-- Timeline middleware configuration (types.ts `TimelineConfig`,
resolved against branching.ts `DEFAULT_CONFIG`). -/
structure TimelineConfig where
  enabled : Bool
  maxHistory : Nat
  autoArchive : Bool
deriving Repr, DecidableEq

/-- branching.ts `DEFAULT_CONFIG` (lines 301-305). -/
def DEFAULT_CONFIG : TimelineConfig :=
  { enabled := true, maxHistory := 100, autoArchive := true }

/-- types.ts `BranchData`: one branch record.  `patches` holds the
branch's saved `TravelPatches` (forward/inverse pairs, zipped). -/
structure BranchData (St : Type) where
  id : String
  name : String
  parentBranchId : Option String
  forkPoint : Nat
  snapshot : St
  currentState : St
  patches : List (PatchPair St)
  currentPosition : Nat
  createdAt : Nat
deriving Repr, DecidableEq

/-- JavaScript property / `Map.get` lookup on an association list
(first binding wins; keys are unique in both JS objects and JS
maps). -/
def mapGet {β : Type} (k : String) : List (String × β) → Option β
  | [] => none
  | (k', v) :: rest => if k' = k then some v else mapGet k rest

/-- JavaScript `Map.set`: replace the binding in place when the key
exists (preserving insertion order), otherwise append. -/
def mapSet {β : Type} (m : List (String × β)) (k : String) (v : β) : List (String × β) :=
  match m with
  | [] => [(k, v)]
  | (k', v') :: rest => if k' = k then (k, v) :: rest else (k', v') :: mapSet rest k v

/-- JavaScript `Map.delete`: remove the binding for `k` (map keys
are unique, so at most one binding exists). -/
def mapDelete {β : Type} : List (String × β) → String → List (String × β)
  | [], _ => []
  | (k', v) :: rest, k => if k' = k then mapDelete rest k else (k', v) :: mapDelete rest k

/-- The store as the branching + timeline middleware stack maintains
it (branching.ts).  `orig` is the `Travels` instance created by the
timeline middleware — the one the `travelSet` closure permanently
refers to.  `curr` is `api.__travels` after `restoreBranch` replaced
it (`none` while `__travels` is still the original instance, so
reads through `getTravels` fall back to `orig`).  `data` is the live
zustand data state (non-callable fields), kept in sync by the
subscribers the middleware registers.  `notifyCount` counts
branch-listener notifications (`notify()` calls). -/
structure Store (St : Type) where
  orig : Travels St
  curr : Option (Travels St)
  data : St
  branches : List (String × BranchData St)
  activeBranchId : String
  notifyCount : Nat
  cfg : TimelineConfig
deriving Repr, DecidableEq

/-- branching.ts `getTravels()`: `api.__travels` — the original
engine until `restoreBranch` replaces it. -/
def getTravels (s : Store St) : Travels St :=
  s.curr.getD s.orig

/-- Writing through `api.__travels`: before any `restoreBranch` the
handle aliases the original instance, afterwards it is the replaced
one. -/
def setLiveTravels (s : Store St) (t : Travels St) : Store St :=
  match s.curr with
  | none => { s with orig := t }
  | some _ => { s with curr := some t }

/-- branching.ts `notify()` (branch listeners + bridge emit),
modelled as a notification counter. -/
def notifyBranch (s : Store St) : Store St :=
  { s with notifyCount := s.notifyCount + 1 }

/-- branching.ts `saveActiveBranch()`: persist the live engine's
patch log and cursor plus a deep clone of the live data state into
the active branch's record; no-op when the record is missing. -/
def saveActiveBranch (s : Store St) : Store St :=
  let t := getTravels s
  match mapGet s.activeBranchId s.branches with
  | none => s
  | some b =>
    let saved := { b with patches := t.patches, currentPosition := t.position, currentState := s.data }
    { s with branches := mapSet s.branches s.activeBranchId saved }

/-- branching.ts `restoreBranch(branchId)`: rebuild a fresh `Travels`
instance from the branch's saved current state, patch log and
cursor — with the literal options `maxHistory: 100, autoArchive:
true` (lines 125-130) — install it as `api.__travels`, rewire the
temporal API to it, and set the live data to the branch's saved
current state. -/
def restoreBranch (s : Store St) (branchId : String) : Store St :=
  match mapGet branchId s.branches with
  | none => s
  | some b =>
    let newTravels : Travels St :=
      { state := b.currentState, patches := b.patches, position := b.currentPosition
        maxHistory := 100, autoArchive := true }
    { s with curr := some newTravels, data := b.currentState }

/-- branching.ts `branchApi.fork` name choice: the given name, or
`branch-<first 6 chars of the generated id>` when none (or the empty
string) is given (`name || ...`). -/
def forkName (name : Option String) (freshId : String) : String :=
  match name with
  | some n => if n = "" then "branch-" ++ freshId.take 6 else n
  | none => "branch-" ++ freshId.take 6

/-- branching.ts `branchApi.fork(name?)`: persist the active branch,
then create a new branch record from a deep clone of the live data,
parented at the active branch and its current position, with an
empty patch log at position 0; register it, notify, and return (a
deep clone of) the record.  The generated id and `Date.now()`
timestamp are explicit parameters (`generateId()` derives from the
clock and a counter). -/
def branchFork (s : Store St) (name : Option String) (freshId : String) (now : Nat) :
    BranchData St × Store St :=
  let s1 := saveActiveBranch s
  let currentData := s1.data
  let newBranch : BranchData St :=
    { id := freshId
      name := forkName name freshId
      parentBranchId := some s1.activeBranchId
      forkPoint := (getTravels s1).position
      snapshot := currentData
      currentState := currentData
      patches := []
      currentPosition := 0
      createdAt := now }
  (newBranch, notifyBranch { s1 with branches := mapSet s1.branches freshId newBranch })

/-- branching.ts `branchApi.switch(branchId)`: no-op when already
active; an error (thrown before any mutation) when the id is
unknown; otherwise persist the active branch, make the target
active, restore its engine and data, and notify.  The first
component is the thrown error message, if any. -/
def branchSwitch (s : Store St) (branchId : String) : Option String × Store St :=
  if branchId = s.activeBranchId then (none, s)
  else if (mapGet branchId s.branches).isNone then
    (some ("Branch \"" ++ branchId ++ "\" not found"), s)
  else
    let s1 := saveActiveBranch s
    let s2 := { s1 with activeBranchId := branchId }
    let s3 := restoreBranch s2 branchId
    (none, notifyBranch s3)

/-- branching.ts `branchApi.list()`: persist the active branch, then
return (deep copies of) all branch records. -/
def branchList (s : Store St) : List (BranchData St) × Store St :=
  let s1 := saveActiveBranch s
  (s1.branches.map Prod.snd, s1)

/-- branching.ts `branchApi.delete(branchId)`: error for `"main"`,
error for the active branch (thrown before any mutation), otherwise
remove the branch and notify. -/
def branchDelete (s : Store St) (branchId : String) : Option String × Store St :=
  if branchId = "main" then (some "Cannot delete the main branch", s)
  else if branchId = s.activeBranchId then
    (some "Cannot delete the active branch. Switch first.", s)
  else (none, notifyBranch { s with branches := mapDelete s.branches branchId })

/-- A user mutation through the store's `set()`: the timeline
middleware's `travelSet` closure routes it to the **original**
`Travels` instance it captured (branching.ts line 341 /
329-351) — `restoreBranch` replaces `api.__travels` but never this
closure's reference.  The instance's subscriber then syncs the live
zustand data when the mutation actually changed the data. -/
def storeMutate [DecidableEq St] (s : Store St) (f : St → St) : Store St :=
  let t' := travelSet s.orig f
  if t'.state ≠ s.orig.state then { s with orig := t', data := t'.state }
  else { s with orig := t' }

/-- A sequence of user mutations through the store's `set()`. -/
def storeMutateSeq [DecidableEq St] (s : Store St) : List (St → St) → Store St
  | [] => s
  | f :: fs => storeMutateSeq (storeMutate s f) fs

/-- A temporal-API operation: it acts on the engine the API is
currently wired to (`getTravels`), and that engine's subscriber
syncs the live data when position or state changed. -/
def temporalOp [DecidableEq St] (s : Store St) (op : Travels St → Travels St) : Store St :=
  let t := getTravels s
  let t' := op t
  let s1 := setLiveTravels s t'
  if t'.position ≠ t.position ∨ t'.state ≠ t.state then { s1 with data := t'.state } else s1

/-- `temporal.back(steps)` at store level. -/
def temporalBack [DecidableEq St] (s : Store St) (steps : Nat) : Store St :=
  temporalOp s (fun t => t.back steps)

/-- A freshly created enabled store (createStore.ts + the timeline
and branching middleware): the original engine seeded with the
initial data state and the configured `maxHistory` / `autoArchive`,
and the `main` branch capturing the engine state right after
initialization (the deferred `queueMicrotask` capture, run before
any further mutation). -/
def storeInit [DecidableEq St] (d0 : St) (cfg : TimelineConfig) (now : Nat) : Store St :=
  { orig := Travels.init d0 cfg.maxHistory cfg.autoArchive
    curr := none
    data := d0
    branches := [("main",
      { id := "main", name := "main", parentBranchId := none, forkPoint := 0
        snapshot := d0, currentState := d0, patches := [], currentPosition := 0
        createdAt := now })]
    activeBranchId := "main"
    notifyCount := 0
    cfg := cfg }

/-- inspector.ts `ActionLogEntry` (types.ts), without the diagnostic
patch list: no claim concerns the logged patches, and their
computation (`mutative` with patch recording) is external to this
repository. -/
structure ActionLogEntry where
  id : String
  timestamp : Nat
  actionName : String
deriving Repr, DecidableEq

/-- inspector.ts `wrappedSet` (lines 29-62): the log entry built for
one observed `set(partial)` call — a fresh id, the current
timestamp, and `extractActionName(partial)`. -/
def wrappedSetEntry (freshId : String) (now : Nat) (arg : SetArg) : ActionLogEntry :=
  { id := freshId, timestamp := now, actionName := extractActionName arg }

/-- branching.ts lines 376-379: when the travels engine applies a
mutation, its subscriber rebuilds `nextState = { ...state,
...actions }` — all data fields followed by all action (function)
fields — and passes it to the next outer `set`, which is the
inspector's `wrappedSet`.  Action values are functions; only their
keys matter to `Object.keys`, so they are modelled by placeholder
values. -/
def timelineNextState (dataFields : List (String × Value)) (actionKeys : List String) : Value :=
  .vObj (dataFields ++ actionKeys.map (fun k => (k, Value.vNull)))

/-- Scenario store for the branching claims: an `Int` counter store
`{count: 0}` with the default timeline configuration. -/
def scnStore0 : Store Int :=
  storeInit 0 DEFAULT_CONFIG 0

/-- Scenario: two increments on `main` (`count = 2`). -/
def scnStore2 : Store Int :=
  storeMutateSeq scnStore0 [fun n => n + 1, fun n => n + 1]

/-- Scenario: fork `"exp"` at `count = 2` (generated id `"exp123"`). -/
def scnFork : BranchData Int × Store Int :=
  branchFork scnStore2 (some "exp") "exp123" 1

/-- Scenario: after switching to the `"exp"` branch. -/
def scnOnExp : Store Int :=
  (branchSwitch scnFork.2 "exp123").2

/-- Scenario: two increments issued while `"exp"` is active. -/
def scnOnExp4 : Store Int :=
  storeMutateSeq scnOnExp [fun n => n + 1, fun n => n + 1]

/-- Scenario: after switching back to `"main"`. -/
def scnBackOnMain : Store Int :=
  (branchSwitch scnOnExp4 "main").2

/-- Counterexample store for the invertibility claim: one real
increment on a fresh counter store (`count = 1`, position 1). -/
def cexStore1 : Store Int :=
  storeMutate (storeInit 0 DEFAULT_CONFIG 0) (fun n => n + 1)

section MapLemmas

variable {β : Type}

theorem mapGet_mapSet_self (m : List (String × β)) (k : String) (v : β) :
    mapGet k (mapSet m k v) = some v := by
  induction m with
  | nil => simp [mapGet, mapSet]
  | cons kv rest ih =>
    obtain ⟨k', v'⟩ := kv
    by_cases h : k' = k
    · simp [mapSet, h, mapGet]
    · simp [mapSet, h, mapGet, ih]

theorem mapGet_mapSet_ne (m : List (String × β)) (k k' : String) (v : β) (h : k' ≠ k) :
    mapGet k' (mapSet m k v) = mapGet k' m := by
  induction m with
  | nil => simp [mapGet, mapSet, Ne.symm h]
  | cons kv rest ih =>
    obtain ⟨k0, v0⟩ := kv
    by_cases h0 : k0 = k
    · subst h0
      simp [mapSet, mapGet, Ne.symm h]
    · simp only [mapSet, if_neg h0]
      by_cases h1 : k0 = k'
      · simp [mapGet, h1]
      · simp [mapGet, h1, ih]

theorem mapGet_mapDelete_self (m : List (String × β)) (k : String) :
    mapGet k (mapDelete m k) = none := by
  induction m with
  | nil => rfl
  | cons kv rest ih =>
    obtain ⟨k0, v0⟩ := kv
    by_cases h : k0 = k
    · simpa [mapDelete, h] using ih
    · simpa [mapDelete, h, mapGet] using ih

theorem mem_of_mapGet (m : List (String × β)) (k : String) (v : β)
    (h : mapGet k m = some v) : (k, v) ∈ m := by
  induction m with
  | nil => simp [mapGet] at h
  | cons kv rest ih =>
    obtain ⟨k0, v0⟩ := kv
    by_cases h0 : k0 = k
    · subst h0
      simp [mapGet] at h
      simp [h]
    · simp only [mapGet, if_neg h0] at h
      exact List.mem_cons_of_mem _ (ih h)

theorem mem_mapSet (m : List (String × β)) (k : String) (v : β) (kv : String × β)
    (h : kv ∈ mapSet m k v) : kv = (k, v) ∨ kv ∈ m := by
  induction m with
  | nil => simpa [mapSet] using h
  | cons kv0 rest ih =>
    obtain ⟨k0, v0⟩ := kv0
    by_cases h0 : k0 = k
    · simp only [mapSet, if_pos h0] at h
      rcases List.mem_cons.mp h with h | h
      · exact Or.inl h
      · exact Or.inr (List.mem_cons_of_mem _ h)
    · simp only [mapSet, if_neg h0] at h
      rcases List.mem_cons.mp h with h | h
      · exact Or.inr (by simp [h])
      · rcases ih h with h | h
        · exact Or.inl h
        · exact Or.inr (List.mem_cons_of_mem _ h)

theorem mem_mapDelete (m : List (String × β)) (k : String) (kv : String × β)
    (h : kv ∈ mapDelete m k) : kv.1 ≠ k ∧ kv ∈ m := by
  induction m with
  | nil => simp [mapDelete] at h
  | cons kv0 rest ih =>
    obtain ⟨k0, v0⟩ := kv0
    by_cases h0 : k0 = k
    · simp only [mapDelete, if_pos h0] at h
      exact ⟨(ih h).1, List.mem_cons_of_mem _ (ih h).2⟩
    · simp only [mapDelete, if_neg h0] at h
      rcases List.mem_cons.mp h with h | h
      · subst h
        exact ⟨h0, List.mem_cons_self _ _⟩
      · exact ⟨(ih h).1, List.mem_cons_of_mem _ (ih h).2⟩

end MapLemmas

section StoreLemmas

variable {St : Type}

theorem saveActiveBranch_orig (s : Store St) : (saveActiveBranch s).orig = s.orig := by
  unfold saveActiveBranch
  cases mapGet s.activeBranchId s.branches <;> rfl

theorem saveActiveBranch_curr (s : Store St) : (saveActiveBranch s).curr = s.curr := by
  unfold saveActiveBranch
  cases mapGet s.activeBranchId s.branches <;> rfl

theorem saveActiveBranch_data (s : Store St) : (saveActiveBranch s).data = s.data := by
  unfold saveActiveBranch
  cases mapGet s.activeBranchId s.branches <;> rfl

theorem saveActiveBranch_activeBranchId (s : Store St) :
    (saveActiveBranch s).activeBranchId = s.activeBranchId := by
  unfold saveActiveBranch
  cases mapGet s.activeBranchId s.branches <;> rfl

theorem getTravels_saveActiveBranch (s : Store St) :
    getTravels (saveActiveBranch s) = getTravels s := by
  unfold getTravels
  rw [saveActiveBranch_orig, saveActiveBranch_curr]

theorem mapGet_saveActiveBranch_ne (s : Store St) (k : String)
    (h : k ≠ s.activeBranchId) :
    mapGet k (saveActiveBranch s).branches = mapGet k s.branches := by
  unfold saveActiveBranch
  cases hm : mapGet s.activeBranchId s.branches with
  | none => rfl
  | some b => simpa using mapGet_mapSet_ne s.branches s.activeBranchId k _ h

end StoreLemmas

section InspectorLemmas

theorem logPushAll_eq_drop {α : Type} (es log : List α) (h : log.length ≤ MAX_LOG_ENTRIES) :
    logPushAll log es = (log ++ es).drop (log.length + es.length - MAX_LOG_ENTRIES) := by
  induction es generalizing log with
  | nil =>
    simp only [logPushAll, List.foldl_nil, List.append_nil, List.length_nil, Nat.add_zero]
    rw [Nat.sub_eq_zero_of_le h, List.drop_zero]
  | cons e rest ih =>
    have hstep : logPushAll log (e :: rest) = logPushAll (logPush log e) rest := rfl
    rw [hstep]
    by_cases hc : log.length + 1 > MAX_LOG_ENTRIES
    · have hlen : log.length = MAX_LOG_ENTRIES := by omega
      have hne : log ≠ [] := by
        intro hnil
        rw [hnil] at hlen
        simp [MAX_LOG_ENTRIES] at hlen
      obtain ⟨hd, tl, rfl⟩ := List.exists_cons_of_ne_nil hne
      have hpush : logPush (hd :: tl) e = tl ++ [e] := by
        simp only [logPush, List.length_append, List.length_cons, List.length_singleton]
        rw [if_pos (by simp at hc ⊢; omega)]
        rfl
      rw [hpush]
      have hlen2 : (tl ++ [e]).length ≤ MAX_LOG_ENTRIES := by
        simp only [List.length_cons] at hlen
        simp
        omega
      rw [ih _ hlen2]
      have h1 : (tl ++ [e]).length + rest.length - MAX_LOG_ENTRIES = rest.length := by
        simp only [List.length_cons] at hlen
        simp
        omega
      have h2 : (hd :: tl).length + (e :: rest).length - MAX_LOG_ENTRIES = rest.length + 1 := by
        simp only [List.length_cons] at hlen ⊢
        omega
      rw [h1, h2]
      have h3 : (tl ++ [e]) ++ rest = tl ++ e :: rest := by simp
      have h4 : (hd :: tl) ++ e :: rest = hd :: (tl ++ e :: rest) := by simp
      rw [h3, h4, List.drop_succ_cons]
    · have hpush : logPush log e = log ++ [e] := by
        simp only [logPush, List.length_append, List.length_singleton]
        rw [if_neg (by omega)]
      rw [hpush]
      have hlen2 : (log ++ [e]).length ≤ MAX_LOG_ENTRIES := by simp; omega
      rw [ih _ hlen2]
      have h1 : (log ++ [e]) ++ rest = log ++ e :: rest := by simp
      have h2 : (log ++ [e]).length + rest.length = log.length + (e :: rest).length := by
        simp
        omega
      rw [h1, h2]

end InspectorLemmas

/-- C9: with the timeline disabled (`enabled: false` installs
`createNoopTemporal()`), every temporal operation (`back`,
`forward`, `go`, `reset`) leaves the store state unchanged (and,
being a total function, cannot throw), `canBack()` and
`canForward()` are constantly false, `position` is 0, and
`getHistory()` is empty. -/
theorem c9_disabled_timeline_noop (St : Type) (s : St) (steps p : Nat) :
    (createNoopTemporal St).back steps s = s
    ∧ (createNoopTemporal St).forward steps s = s
    ∧ (createNoopTemporal St).go p s = s
    ∧ (createNoopTemporal St).reset s = s
    ∧ (createNoopTemporal St).canBack = false
    ∧ (createNoopTemporal St).canForward = false
    ∧ (createNoopTemporal St).position = 0
    ∧ (createNoopTemporal St).getHistory = ([] : List St) :=
  ⟨rfl, rfl, rfl, rfl, rfl, rfl, rfl, rfl⟩

/-- C7: the action log never exceeds 200 entries and eviction is
FIFO: starting from an empty log, a run of mutations retains
exactly the most recent 200 entries (the oldest `n - 200` evicted),
the resulting length is `min n 200`, and each single logged
mutation appends exactly one entry, shifting off exactly the oldest
entry when the cap would be exceeded. -/
theorem c7_action_log_cap {α : Type} (es : List α) :
    logPushAll ([] : List α) es = es.drop (es.length - MAX_LOG_ENTRIES)
    ∧ (logPushAll ([] : List α) es).length = min es.length MAX_LOG_ENTRIES
    ∧ ∀ (log : List α) (e : α), log.length ≤ MAX_LOG_ENTRIES →
        logPush log e =
          if log.length = MAX_LOG_ENTRIES then log.tail ++ [e] else log ++ [e] := by
  refine ⟨?_, ?_, ?_⟩
  · simpa using logPushAll_eq_drop es [] (by simp)
  · rw [(by simpa using logPushAll_eq_drop es [] (by simp) :
      logPushAll ([] : List α) es = es.drop (es.length - MAX_LOG_ENTRIES))]
    simp only [List.length_drop]
    omega
  · intro log e hle
    by_cases hc : log.length = MAX_LOG_ENTRIES
    · rw [if_pos hc]
      have hne : log ≠ [] := by
        intro hnil
        rw [hnil] at hc
        simp [MAX_LOG_ENTRIES] at hc
      obtain ⟨hd, tl, rfl⟩ := List.exists_cons_of_ne_nil hne
      simp only [logPush, List.length_append, List.length_cons, List.length_singleton]
      rw [if_pos (by simp only [List.length_cons] at hc; simp; omega)]
      rfl
    · rw [if_neg hc]
      simp only [logPush, List.length_append, List.length_singleton]
      rw [if_neg (by omega)]

/-- C7 witness: 210 sequential logged mutations leave exactly the
last 200 entries (the oldest 10 evicted), and a push onto a full
log of 200 entries shifts off exactly the oldest entry. -/
theorem c7_witness :
    logPushAll ([] : List Nat) (List.range 210) = (List.range 210).drop 10
    ∧ logPush (List.range 200) 7 = (List.range 200).tail ++ [7] := by
  constructor
  · have h := (c7_action_log_cap (List.range 210)).1
    rw [List.length_range] at h
    norm_num [MAX_LOG_ENTRIES] at h
    exact h
  · have h := (c7_action_log_cap ([] : List Nat)).2.2 (List.range 200) 7
      (by rw [List.length_range]; norm_num [MAX_LOG_ENTRIES])
    rw [List.length_range] at h
    norm_num [MAX_LOG_ENTRIES] at h
    exact h

/-- C8 counterexample: in the composed store, a mutation issued with
the named mutator function `increment` reaches the inspector not as
that function but as the timeline subscriber's full
`{...state, ...actions}` object (counter store: data field `count`,
action field `increment`), so the logged action name is
`"set(count, increment)"` — not the mutator's name `"increment"`
(which `extractActionName` would produce if the function itself
were received). -/
theorem c8_counterexample :
    (wrappedSetEntry "a1" 0
        (SetArg.val (timelineNextState [("count", Value.vNum 1)] ["increment"]))).actionName
      = "set(count, increment)"
    ∧ extractActionName (SetArg.fn "increment") = "increment"
    ∧ "set(count, increment)" ≠ "increment" := by
  refine ⟨by decide, by decide, by decide⟩

/-- C8 (amended): the inspector logs
`extractActionName(partial-as-received)`.  For mutations routed
through the timeline engine the received partial is the subscriber's
full next-state object, so the logged name is
`"set(<all data keys then all action keys>)"`; the mutator-name /
changed-keys / `"anonymous"` / `"set()"` heuristics apply to the
partial as the inspector's wrapped `set` receives it (e.g. with the
timeline disabled): named function → its name, empty-named function
→ `"anonymous"`, non-empty object → `"set(<its keys>)"`, empty
object → `"set()"`. -/
theorem extractActionName_vObj (fields : List (String × Value)) (h : fields ≠ []) :
    extractActionName (SetArg.val (Value.vObj fields))
      = "set(" ++ String.intercalate ", " (fields.map Prod.fst) ++ ")" := by
  have hlen : (jsKeys (Value.vObj fields)).length > 0 := by
    simp only [jsKeys, List.length_map]
    rcases List.exists_cons_of_ne_nil h with ⟨x, xs, hx⟩
    rw [hx]
    simp
  simp only [extractActionName, isObjectNonNull, if_true, jsKeys]
  rw [if_pos (show (List.map Prod.fst fields).length > 0 by simpa [jsKeys] using hlen)]

theorem c8_amended_action_names (freshId : String) (now : Nat) :
    (∀ (dataFields : List (String × Value)) (actionKeys : List String),
        dataFields ≠ [] ∨ actionKeys ≠ [] →
        (wrappedSetEntry freshId now
            (SetArg.val (timelineNextState dataFields actionKeys))).actionName
          = "set(" ++ String.intercalate ", " (dataFields.map Prod.fst ++ actionKeys) ++ ")")
    ∧ (∀ name : String, name ≠ "" →
        (wrappedSetEntry freshId now (SetArg.fn name)).actionName = name)
    ∧ (wrappedSetEntry freshId now (SetArg.fn "")).actionName = "anonymous"
    ∧ (∀ fields : List (String × Value), fields ≠ [] →
        (wrappedSetEntry freshId now (SetArg.val (Value.vObj fields))).actionName
          = "set(" ++ String.intercalate ", " (fields.map Prod.fst) ++ ")")
    ∧ (wrappedSetEntry freshId now (SetArg.val (Value.vObj []))).actionName = "set()" := by
  refine ⟨?_, ?_, rfl, ?_, rfl⟩
  · intro dataFields actionKeys h
    have hne : dataFields ++ actionKeys.map (fun k => (k, Value.vNull)) ≠ [] := by
      rcases h with h | h
      · rcases List.exists_cons_of_ne_nil h with ⟨x, xs, hx⟩
        rw [hx]
        simp
      · rcases List.exists_cons_of_ne_nil h with ⟨x, xs, hx⟩
        rw [hx]
        rcases dataFields with _ | ⟨y, ys⟩ <;> simp
    show extractActionName (SetArg.val (Value.vObj
        (dataFields ++ actionKeys.map (fun k => (k, Value.vNull))))) = _
    rw [extractActionName_vObj _ hne]
    have hcomp : (Prod.fst ∘ fun k : String => (k, Value.vNull)) = id := rfl
    rw [List.map_append, List.map_map, hcomp, List.map_id]

  · intro name h
    simp [wrappedSetEntry, extractActionName, h]
  · intro fields h
    exact extractActionName_vObj fields h

/-- C8 witness: concrete instances of the amended behavior — a
subscriber-routed mutation on a `{count}` store with an `inc`
action logs `"set(count, inc)"`; a directly received named function
logs its name. -/
theorem c8_witness :
    (wrappedSetEntry "x" 0
        (SetArg.val (timelineNextState [("count", Value.vNum 0)] ["inc"]))).actionName
      = "set(count, inc)"
    ∧ (wrappedSetEntry "x" 0 (SetArg.fn "increment")).actionName = "increment" := by
  constructor
  · have h := (c8_amended_action_names "x" 0).1 [("count", Value.vNum 0)] ["inc"]
      (Or.inl (by decide))
    rw [h]
    decide
  · exact (c8_amended_action_names "x" 0).2.1 "increment" (by decide)

/-- C10: the engine rebuilt by `restoreBranch` after a switch to a
different existing branch is constructed with the literal options
`maxHistory: 100` and `autoArchive: true`, regardless of the
timeline configuration the store was created with — while the
initial engine does honor the configured values. -/
theorem c10_switch_rebuild_ignores_config {St : Type} [DecidableEq St]
    (s : Store St) (bid : String) (b : BranchData St)
    (hne : bid ≠ s.activeBranchId) (hb : mapGet bid s.branches = some b)
    (d0 : St) (cfg : TimelineConfig) (now : Nat) :
    (getTravels (branchSwitch s bid).2).maxHistory = 100
    ∧ (getTravels (branchSwitch s bid).2).autoArchive = true
    ∧ (getTravels (storeInit d0 cfg now)).maxHistory = cfg.maxHistory
    ∧ (getTravels (storeInit d0 cfg now)).autoArchive = cfg.autoArchive := by
  have hb2 : mapGet bid ({ saveActiveBranch s with activeBranchId := bid } : Store St).branches
      = some b := by
    show mapGet bid (saveActiveBranch s).branches = some b
    rw [mapGet_saveActiveBranch_ne s bid hne, hb]
  have hsw : (branchSwitch s bid).2
      = notifyBranch (restoreBranch { saveActiveBranch s with activeBranchId := bid } bid) := by
    unfold branchSwitch
    rw [if_neg hne, hb]
    rfl
  rw [hsw]
  unfold restoreBranch
  rw [hb2]
  exact ⟨rfl, rfl, rfl, rfl⟩

/-- C10 witness: on the concrete scenario store, switching from
`main` to the forked branch `exp123` yields an engine with
`maxHistory = 100` and `autoArchive = true`. -/
theorem c10_witness :
    (getTravels (branchSwitch scnFork.2 "exp123").2).maxHistory = 100
    ∧ (getTravels (branchSwitch scnFork.2 "exp123").2).autoArchive = true := by
  have h := c10_switch_rebuild_ignores_config scnFork.2 "exp123" scnFork.1
    (by decide) (by decide) (0 : Int) DEFAULT_CONFIG 0
  exact ⟨h.1, h.2.1⟩

/-- C2: evaluation of the fork/switch/mutate scenario on the model
that renders the source's wiring faithfully.  The data outcomes the
spec describes do hold (`count = 4` on `exp` after two increments;
switching back to `main` restores `count = 2`), but the mutations
issued after the switch are **not** recorded in the engine serving
the temporal API: `travelSet` still routes them to the original
engine (`restoreBranch` replaces `api.__travels`, never the
closure's reference), so the active branch's engine stays at
position 0 with an empty patch log — the claimed per-mutation
append/advance does not happen, and undo on the new branch is
impossible (`canBack` is false) even though the claim requires the
cursor to have advanced twice. -/
theorem c2_switch_mutation_recording_bug :
    scnOnExp4.data = 4
    ∧ (getTravels scnOnExp4).position = 0
    ∧ (getTravels scnOnExp4).patches = []
    ∧ (getTravels scnOnExp4).canBack = false
    ∧ (getTravels scnOnExp4).canForward = false
    ∧ scnOnExp4.orig.position = 4
    ∧ scnBackOnMain.data = 2 := by
  refine ⟨by decide, by decide, by decide, by decide, by decide, by decide, by decide⟩

/-- C3: `branch.fork(name?)` persists the active branch and returns
a record whose `currentState` (and `snapshot`) is the live data,
whose parent is the active branch, whose `forkPoint` is the live
engine's current position, whose own patch log is empty at position
0, whose id is the generated id, whose name defaults to
`branch-<first 6 chars of the id>`, and which equals the record
stored in the branch map (deep clone — value equality; the model's
values are immutable, rendering the deep-copy isolation). -/
theorem c3_fork_record {St : Type} [DecidableEq St] (s : Store St) (name : Option String)
    (freshId : String) (now : Nat) :
    ((branchFork s name freshId now).1).currentState = s.data
    ∧ ((branchFork s name freshId now).1).snapshot = s.data
    ∧ ((branchFork s name freshId now).1).parentBranchId = some s.activeBranchId
    ∧ ((branchFork s name freshId now).1).forkPoint = (getTravels s).position
    ∧ ((branchFork s name freshId now).1).patches = []
    ∧ ((branchFork s name freshId now).1).currentPosition = 0
    ∧ ((branchFork s name freshId now).1).id = freshId
    ∧ (name = none → ((branchFork s name freshId now).1).name = "branch-" ++ freshId.take 6)
    ∧ mapGet freshId ((branchFork s name freshId now).2).branches
        = some (branchFork s name freshId now).1 := by
  refine ⟨?_, ?_, ?_, ?_, ?_, ?_, ?_, ?_, ?_⟩
  · simpa only [branchFork] using saveActiveBranch_data s
  · simpa only [branchFork] using saveActiveBranch_data s
  · simp only [branchFork]
    rw [saveActiveBranch_activeBranchId]
  · simp only [branchFork]
    rw [getTravels_saveActiveBranch]
  · simp [branchFork]
  · simp [branchFork]
  · simp [branchFork]
  · intro hn
    subst hn
    simp only [branchFork]
    rfl
  · simp only [branchFork, notifyBranch]
    exact mapGet_mapSet_self _ _ _

/-- C3 witness: forking the scenario store (at `count = 2`) with no
name yields the auto-generated name and the documented record
fields. -/
theorem c3_witness :
    ((branchFork scnStore2 none "abcdef99" 9).1).currentState = 2
    ∧ ((branchFork scnStore2 none "abcdef99" 9).1).name = "branch-abcdef"
    ∧ ((branchFork scnStore2 none "abcdef99" 9).1).forkPoint = 2
    ∧ ((branchFork scnStore2 none "abcdef99" 9).1).currentPosition = 0 := by
  have h := c3_fork_record scnStore2 none "abcdef99" 9
  refine ⟨h.1.trans (by decide), (h.2.2.2.2.2.2.2.1 rfl).trans (by decide),
    h.2.2.2.1.trans (by decide), h.2.2.2.2.2.1⟩

/-- C4: `branch.switch(branchId)` is a no-op when the id is already
active; throws on an unknown id with the branch map and live data
untouched; and otherwise persists the active branch's record (log,
cursor and live data), makes the target active, rebuilds the live
engine from the target's saved state, replaces the live data with
the target's saved current data, and notifies subscribers. -/
theorem c4_switch_semantics {St : Type} [DecidableEq St] (s : Store St) (bid : String) :
    (bid = s.activeBranchId → branchSwitch s bid = (none, s))
    ∧ (bid ≠ s.activeBranchId → mapGet bid s.branches = none →
        (branchSwitch s bid).1.isSome = true ∧ (branchSwitch s bid).2 = s)
    ∧ (∀ b : BranchData St, bid ≠ s.activeBranchId → mapGet bid s.branches = some b →
        (branchSwitch s bid).1 = none
        ∧ (branchSwitch s bid).2.activeBranchId = bid
        ∧ (branchSwitch s bid).2.data = b.currentState
        ∧ (branchSwitch s bid).2.notifyCount = s.notifyCount + 1
        ∧ getTravels (branchSwitch s bid).2
            = { state := b.currentState, patches := b.patches, position := b.currentPosition,
                maxHistory := 100, autoArchive := true }
        ∧ (∀ a0 : BranchData St, mapGet s.activeBranchId s.branches = some a0 →
            mapGet s.activeBranchId (branchSwitch s bid).2.branches
              = some { a0 with
                         patches := (getTravels s).patches,
                         currentPosition := (getTravels s).position,
                         currentState := s.data })) := by
  refine ⟨?_, ?_, ?_⟩
  · intro h
    unfold branchSwitch
    rw [if_pos h]
  · intro hne hnone
    unfold branchSwitch
    rw [if_neg hne, hnone]
    exact ⟨rfl, rfl⟩
  · intro b hne hb
    have hb2 : mapGet bid ({ saveActiveBranch s with activeBranchId := bid } : Store St).branches
        = some b := by
      show mapGet bid (saveActiveBranch s).branches = some b
      rw [mapGet_saveActiveBranch_ne s bid hne, hb]
    have hsw : branchSwitch s bid
        = (none, notifyBranch (restoreBranch { saveActiveBranch s with activeBranchId := bid } bid)) := by
      unfold branchSwitch
      rw [if_neg hne, hb]
      rfl
    rw [hsw]
    refine ⟨rfl, ?_, ?_, ?_, ?_, ?_⟩
    · show (notifyBranch (restoreBranch _ bid)).activeBranchId = bid
      unfold restoreBranch
      rw [hb2]
      rfl
    · show (notifyBranch (restoreBranch _ bid)).data = b.currentState
      unfold restoreBranch
      rw [hb2]
      rfl
    · show (notifyBranch (restoreBranch _ bid)).notifyCount = s.notifyCount + 1
      unfold restoreBranch
      rw [hb2]
      show (saveActiveBranch s).notifyCount + 1 = s.notifyCount + 1
      unfold saveActiveBranch
      cases mapGet s.activeBranchId s.branches <;> rfl
    · show getTravels (notifyBranch (restoreBranch _ bid)) = _
      unfold restoreBranch
      rw [hb2]
      rfl
    · intro a0 ha0
      show mapGet s.activeBranchId (notifyBranch (restoreBranch _ bid)).branches = _
      unfold restoreBranch
      rw [hb2]
      show mapGet s.activeBranchId (saveActiveBranch s).branches = _
      unfold saveActiveBranch
      rw [ha0]
      show mapGet s.activeBranchId (mapSet s.branches s.activeBranchId _) = _
      rw [mapGet_mapSet_self]

/-- C4 witness: on the concrete scenario store, switching to an
unknown id errors and leaves the store unchanged; switching to the
forked branch `exp123` succeeds, makes it active, and replaces the
live data with its saved current state (`count = 2`). -/
theorem c4_witness :
    (branchSwitch scnFork.2 "nope").1.isSome = true
    ∧ (branchSwitch scnFork.2 "nope").2 = scnFork.2
    ∧ (branchSwitch scnFork.2 "exp123").1 = none
    ∧ (branchSwitch scnFork.2 "exp123").2.activeBranchId = "exp123"
    ∧ (branchSwitch scnFork.2 "exp123").2.data = 2 := by
  have h1 := (c4_switch_semantics scnFork.2 "nope").2.1 (by decide) (by decide)
  have h2 := (c4_switch_semantics scnFork.2 "exp123").2.2 scnFork.1 (by decide) (by decide)
  exact ⟨h1.1, h1.2, h2.1, h2.2.1, h2.2.2.1.trans (by decide)⟩

/-- C5: `branch.delete(branchId)` throws on `"main"` and on the
active branch, leaving the store (branch map included) unchanged in
both error cases; for any other id it succeeds, the id is gone from
the branch map, and no record returned by `branch.list()` carries
it (assuming the system invariant that each record's id equals its
map key). -/
theorem c5_delete_protection {St : Type} [DecidableEq St] (s : Store St) (bid : String)
    (hwf : ∀ kv ∈ s.branches, (Prod.snd kv).id = kv.1) :
    (bid = "main" → branchDelete s bid = (some "Cannot delete the main branch", s))
    ∧ (bid ≠ "main" → bid = s.activeBranchId →
        branchDelete s bid = (some "Cannot delete the active branch. Switch first.", s))
    ∧ (bid ≠ "main" → bid ≠ s.activeBranchId →
        (branchDelete s bid).1 = none
        ∧ mapGet bid (branchDelete s bid).2.branches = none
        ∧ ∀ r ∈ (branchList (branchDelete s bid).2).1, r.id ≠ bid) := by
  refine ⟨?_, ?_, ?_⟩
  · intro h
    unfold branchDelete
    rw [if_pos h]
  · intro hm ha
    unfold branchDelete
    rw [if_neg hm, if_pos ha]
  · intro hm ha
    have hdel : branchDelete s bid
        = (none, notifyBranch { s with branches := mapDelete s.branches bid }) := by
      unfold branchDelete
      rw [if_neg hm, if_neg ha]
    rw [hdel]
    refine ⟨rfl, mapGet_mapDelete_self _ _, ?_⟩
    intro r hr
    set s' : Store St := notifyBranch { s with branches := mapDelete s.branches bid } with hs'
    have hbr : s'.branches = mapDelete s.branches bid := rfl
    have hact : s'.activeBranchId = s.activeBranchId := rfl
    simp only [branchList, List.mem_map] at hr
    obtain ⟨kv, hkv, hkvr⟩ := hr
    -- kv is a binding of (saveActiveBranch s').branches
    rcases hsave : mapGet s'.activeBranchId s'.branches with _ | a
    · rw [show saveActiveBranch s' = s' by unfold saveActiveBranch; rw [hsave]] at hkv
      rw [hbr] at hkv
      obtain ⟨hne, hmem⟩ := mem_mapDelete _ _ _ hkv
      rw [← hkvr, hwf kv hmem]
      exact hne
    · have hkv2 : kv ∈ mapSet s'.branches s'.activeBranchId
          ({ a with
              patches := (getTravels s').patches,
              currentPosition := (getTravels s').position,
              currentState := s'.data }) := by
        rw [show (saveActiveBranch s').branches = mapSet s'.branches s'.activeBranchId
            ({ a with
                patches := (getTravels s').patches,
                currentPosition := (getTravels s').position,
                currentState := s'.data }) by unfold saveActiveBranch; rw [hsave]] at hkv
        exact hkv
      rcases mem_mapSet _ _ _ _ hkv2 with h | h
      · -- the refreshed active-branch record keeps its id, which is not bid
        have hamem : (s'.activeBranchId, a) ∈ s'.branches := mem_of_mapGet _ _ _ hsave
        rw [hbr] at hamem
        obtain ⟨hane, hamem2⟩ := mem_mapDelete _ _ _ hamem
        have haid : a.id = s'.activeBranchId := hwf _ hamem2
        rw [← hkvr, h]
        simpa [haid] using hane
      · rw [hbr] at h
        obtain ⟨hne, hmem⟩ := mem_mapDelete _ _ _ h
        rw [← hkvr, hwf kv hmem]
        exact hne

/-- C5 witness: on the concrete scenario store (branches `main` and
`exp123`, `main` active), deleting `"main"` and deleting the active
branch fail with the store unchanged, while deleting `exp123`
succeeds and removes it from the branch map. -/
theorem c5_witness :
    branchDelete scnFork.2 "main" = (some "Cannot delete the main branch", scnFork.2)
    ∧ (branchDelete scnFork.2 "exp123").1 = none
    ∧ mapGet "exp123" (branchDelete scnFork.2 "exp123").2.branches = none := by
  have h := c5_delete_protection scnFork.2 "main" (by decide)
  have h2 := c5_delete_protection scnFork.2 "exp123" (by decide)
  exact ⟨h.1 rfl, (h2.2.2 (by decide) (by decide)).1, (h2.2.2 (by decide) (by decide)).2.1⟩

theorem chainPairs_length {St : Type} (s0 : St) (fs : List (St → St)) :
    (chainPairs s0 fs).length = fs.length := by
  induction fs generalizing s0 with
  | nil => rfl
  | cons f rest ih => simp [chainPairs, ih]

section TravelsLemmas

variable {St : Type} [DecidableEq St]

theorem setState_state_of_ne (t : Travels St) (f : St → St) (h : f t.state ≠ t.state) :
    (t.setState f).state = f t.state := by
  unfold Travels.setState
  rw [if_neg h]
  by_cases hc : (t.patches.take t.position ++ [({ pre := t.state, post := f t.state } : PatchPair St)]).length > t.maxHistory
  · rw [if_pos hc]
  · rw [if_neg hc]

theorem setState_changing (t : Travels St) (f : St → St)
    (hch : f t.state ≠ t.state) (hwf : t.position ≤ t.patches.length)
    (hcap : t.position + 1 ≤ t.maxHistory) :
    t.setState f =
      { state := f t.state,
        patches := t.patches.take t.position ++ [{ pre := t.state, post := f t.state }],
        position := t.position + 1, maxHistory := t.maxHistory,
        autoArchive := t.autoArchive } := by
  unfold Travels.setState
  rw [if_neg hch]
  have hlen : (t.patches.take t.position
      ++ [({ pre := t.state, post := f t.state } : PatchPair St)]).length = t.position + 1 := by
    simp [List.length_take, Nat.min_eq_left hwf]
  rw [if_neg (by rw [hlen]; omega)]

theorem mutateSeq_full (fs : List (St → St)) (t : Travels St)
    (hfull : t.position = t.patches.length)
    (hch : ChangingSeq t fs)
    (hcap : t.position + fs.length ≤ t.maxHistory) :
    mutateSeq t fs =
      { state := fs.foldl (fun s f => f s) t.state,
        patches := t.patches ++ chainPairs t.state fs,
        position := t.position + fs.length, maxHistory := t.maxHistory,
        autoArchive := t.autoArchive } := by
  induction fs generalizing t with
  | nil =>
    simp only [mutateSeq, List.foldl_nil, chainPairs, List.append_nil, List.length_nil,
      Nat.add_zero]
  | cons f rest ih =>
    obtain ⟨hch1, hch2⟩ := hch
    have hstep : t.setState f =
        { state := f t.state,
          patches := t.patches ++ [{ pre := t.state, post := f t.state }],
          position := t.position + 1, maxHistory := t.maxHistory,
          autoArchive := t.autoArchive } := by
      rw [setState_changing t f hch1 (le_of_eq hfull)
        (by simp only [List.length_cons] at hcap; omega)]
      rw [hfull, List.take_length]
    show mutateSeq (t.setState f) rest = _
    rw [hstep] at hch2 ⊢
    rw [ih _ (by simp [hfull]) hch2 (by simp only [List.length_cons] at hcap; simp; omega)]
    simp only [List.append_assoc, List.singleton_append, List.length_cons, chainPairs,
      List.foldl_cons]
    have harith : t.position + 1 + rest.length = t.position + (rest.length + 1) := by omega
    rw [harith]

theorem mutateSeq_changing (fs : List (St → St)) (t : Travels St)
    (hwf : t.position ≤ t.patches.length)
    (hch : ChangingSeq t fs)
    (hcap : t.position + fs.length ≤ t.maxHistory) :
    mutateSeq t fs =
      { state := fs.foldl (fun s f => f s) t.state,
        patches := if fs.isEmpty then t.patches
          else t.patches.take t.position ++ chainPairs t.state fs,
        position := t.position + fs.length, maxHistory := t.maxHistory,
        autoArchive := t.autoArchive } := by
  cases fs with
  | nil => simp [mutateSeq]
  | cons f rest =>
    obtain ⟨hch1, hch2⟩ := hch
    have hstep := setState_changing t f hch1 hwf
      (by simp only [List.length_cons] at hcap; omega)
    show mutateSeq (t.setState f) rest = _
    rw [hstep] at hch2 ⊢
    rw [mutateSeq_full rest _ (by simp [List.length_take, Nat.min_eq_left hwf]) hch2
      (by simp only [List.length_cons] at hcap
          simp [List.length_take, Nat.min_eq_left hwf]
          omega)]
    simp only [List.append_assoc, List.singleton_append, chainPairs, List.foldl_cons,
      List.isEmpty_cons, List.length_cons]
    have harith : t.position + 1 + rest.length = t.position + (rest.length + 1) := by
      omega
    rw [harith]
    simp

end TravelsLemmas

section StoreSeqLemmas

variable {St : Type} [DecidableEq St]

theorem storeMutateSeq_spec (fs : List (St → St)) (s : Store St)
    (hcurr : s.curr = none) (hsync : s.data = s.orig.state)
    (hch : ChangingSeq s.orig fs) :
    (storeMutateSeq s fs).orig = mutateSeq s.orig fs
    ∧ (storeMutateSeq s fs).curr = none
    ∧ (storeMutateSeq s fs).data = (mutateSeq s.orig fs).state := by
  induction fs generalizing s with
  | nil => exact ⟨rfl, hcurr, hsync⟩
  | cons f rest ih =>
    obtain ⟨hch1, hch2⟩ := hch
    have hstate := setState_state_of_ne s.orig f hch1
    have hcond : (travelSet s.orig f).state ≠ s.orig.state := by
      rw [travelSet, hstate]
      exact hch1
    have hmut : storeMutate s f
        = { s with orig := travelSet s.orig f, data := (travelSet s.orig f).state } := by
      unfold storeMutate
      rw [if_pos hcond]
    show (storeMutateSeq (storeMutate s f) rest).orig = mutateSeq (travelSet s.orig f) rest
      ∧ (storeMutateSeq (storeMutate s f) rest).curr = none
      ∧ (storeMutateSeq (storeMutate s f) rest).data = (mutateSeq (travelSet s.orig f) rest).state
    rw [hmut]
    have hrec := ih { s with orig := travelSet s.orig f, data := (travelSet s.orig f).state }
      hcurr rfl hch2
    exact hrec

theorem temporalBack_curr_none (s : Store St) (hcurr : s.curr = none) (steps : Nat) :
    temporalBack s steps
      = if (s.orig.back steps).position ≠ s.orig.position
           ∨ (s.orig.back steps).state ≠ s.orig.state
        then { s with orig := s.orig.back steps, data := (s.orig.back steps).state }
        else { s with orig := s.orig.back steps } := by
  unfold temporalBack temporalOp setLiveTravels getTravels
  rw [hcurr]
  rfl

omit [DecidableEq St] in
theorem back_zero_of_wf (t : Travels St) (hwf : t.position ≤ t.patches.length) :
    (t.back 0).position = t.position ∧ (t.back 0).state = t.state := by
  constructor
  · show min (t.position - 0) t.patches.length = t.position
    rw [Nat.sub_zero, Nat.min_eq_left hwf]
  · show t.stateAtPos (min (t.position - 0) t.patches.length) = t.state
    rw [Nat.sub_zero, Nat.min_eq_left hwf]
    unfold Travels.stateAtPos
    simp

end StoreSeqLemmas

/-- C1 counterexample: a mutation that does not change the data
(e.g. an empty partial merge, or a mutator that leaves the state
as-is) is skipped by the engine ("only if a change actually
occurred"), so `back()` once per issued mutation steps past it and
undoes an *earlier* mutation: on a counter store at `count = 1`
(position 1), the one-mutation sequence `[identity]` followed by one
`back()` yields `count = 0`, not the pre-sequence value `1`. -/
theorem c1_invertibility_counterexample :
    cexStore1.data = 1
    ∧ (temporalBack (storeMutateSeq cexStore1 [fun n => n]) 1).data = 0
    ∧ (temporalBack (storeMutateSeq cexStore1 [fun n => n]) 1).data ≠ cexStore1.data := by
  exact ⟨by decide, by decide, by decide⟩

/-- C1 (amended): for a sequence of mutations issued through the
store's `set()` each of which actually changes the data state, on a
store whose engine is the one created at initialization (no branch
switch has replaced it: `curr = none`), with the live data in sync
and the engine within its history bound (`position + n ≤
maxHistory`, so no eviction occurs), calling `temporal.back()` once
per mutation restores exactly the data state (and cursor) from
before the sequence. -/
theorem c1_invertibility_amended {St : Type} [DecidableEq St]
    (s : Store St) (fs : List (St → St))
    (hcurr : s.curr = none)
    (hsync : s.data = s.orig.state)
    (hwf : s.orig.position ≤ s.orig.patches.length)
    (hch : ChangingSeq s.orig fs)
    (hcap : s.orig.position + fs.length ≤ s.orig.maxHistory) :
    (temporalBack (storeMutateSeq s fs) fs.length).data = s.data
    ∧ (getTravels (temporalBack (storeMutateSeq s fs) fs.length)).position
        = s.orig.position := by
  obtain ⟨horig, hcurr2, hdata⟩ := storeMutateSeq_spec fs s hcurr hsync hch
  have hmut := mutateSeq_changing fs s.orig hwf hch hcap
  have hstep := temporalBack_curr_none (storeMutateSeq s fs) hcurr2 fs.length
  cases fs with
  | nil =>
    have hT : (storeMutateSeq s []).orig = s.orig := horig
    have hback := back_zero_of_wf s.orig hwf
    rw [hstep, hT]
    rw [if_neg (by push_neg; exact hback)]
    refine ⟨?_, ?_⟩
    · show (storeMutateSeq s []).data = s.data
      rw [hdata]
      exact hsync.symm
    · show (getTravels { storeMutateSeq s [] with orig := s.orig.back 0 }).position
          = s.orig.position
      rw [show getTravels { storeMutateSeq s [] with orig := s.orig.back 0 }
          = s.orig.back 0 by unfold getTravels; rw [hcurr2]; rfl]
      exact hback.1
  | cons f rest =>
    have hT : (storeMutateSeq s (f :: rest)).orig =
        { state := (f :: rest).foldl (fun a g => g a) s.orig.state,
          patches := s.orig.patches.take s.orig.position
            ++ chainPairs s.orig.state (f :: rest),
          position := s.orig.position + (f :: rest).length,
          maxHistory := s.orig.maxHistory,
          autoArchive := s.orig.autoArchive } := by
      rw [horig, hmut]
      simp
    have htake : (s.orig.patches.take s.orig.position).length = s.orig.position := by
      simp [List.length_take, Nat.min_eq_left hwf]
    have hplen : (s.orig.patches.take s.orig.position
        ++ chainPairs s.orig.state (f :: rest)).length
        = s.orig.position + (f :: rest).length := by
      simp only [List.length_append, htake, chainPairs_length]
    have hbackpos : ((storeMutateSeq s (f :: rest)).orig.back (f :: rest).length).position
        = s.orig.position := by
      rw [hT]
      show min (s.orig.position + (f :: rest).length - (f :: rest).length)
          (s.orig.patches.take s.orig.position
            ++ chainPairs s.orig.state (f :: rest)).length = s.orig.position
      rw [hplen, Nat.add_sub_cancel]
      omega
    have hbackstate : ((storeMutateSeq s (f :: rest)).orig.back (f :: rest).length).state
        = s.orig.state := by
      rw [hT]
      show Travels.stateAtPos _
          (min (s.orig.position + (f :: rest).length - (f :: rest).length)
            (s.orig.patches.take s.orig.position
              ++ chainPairs s.orig.state (f :: rest)).length) = s.orig.state
      rw [hplen, Nat.add_sub_cancel, Nat.min_eq_left (by omega)]
      unfold Travels.stateAtPos
      rw [if_pos (by
        show s.orig.position
            < ({ state := (f :: rest).foldl (fun a g => g a) s.orig.state,
                 patches := s.orig.patches.take s.orig.position
                   ++ chainPairs s.orig.state (f :: rest),
                 position := s.orig.position + (f :: rest).length,
                 maxHistory := s.orig.maxHistory,
                 autoArchive := s.orig.autoArchive } : Travels St).position
        show s.orig.position < s.orig.position + (f :: rest).length
        rw [List.length_cons]
        omega)]
      rw [List.getElem?_append_right (le_of_eq htake)]
      rw [htake, Nat.sub_self]
      simp [chainPairs]
    rw [hstep]
    rw [if_pos (Or.inl (by
      rw [hbackpos, hT]
      show s.orig.position ≠ s.orig.position + (f :: rest).length
      rw [List.length_cons]
      omega))]
    refine ⟨?_, ?_⟩
    · show ((storeMutateSeq s (f :: rest)).orig.back (f :: rest).length).state = s.data
      rw [hbackstate, hsync]
    · show (getTravels { storeMutateSeq s (f :: rest) with
          orig := (storeMutateSeq s (f :: rest)).orig.back (f :: rest).length,
          data := ((storeMutateSeq s (f :: rest)).orig.back (f :: rest).length).state
          }).position = s.orig.position
      rw [show getTravels { storeMutateSeq s (f :: rest) with
          orig := (storeMutateSeq s (f :: rest)).orig.back (f :: rest).length,
          data := ((storeMutateSeq s (f :: rest)).orig.back (f :: rest).length).state }
          = (storeMutateSeq s (f :: rest)).orig.back (f :: rest).length by
        unfold getTravels; rw [hcurr2]; rfl]
      exact hbackpos

section DiffLemmas

theorem diffGo_nil (pp : List String) (b : List (String × Value)) :
    diffGo pp [] b = [] := by
  rw [diffGo]

theorem diffGo_cons (pp : List String) (k : String) (v : Value)
    (rest b : List (String × Value)) :
    diffGo pp ((k, v) :: rest) b =
      (match lookupKey k b with
       | none => [.removed (pp ++ [k]) v]
       | some vb =>
         match v, vb with
         | .vObj fa, .vObj fb =>
           diffGo (pp ++ [k]) fa fb ++ addedEntries (pp ++ [k]) fa fb
         | _, _ => if v = vb then [] else [.changed (pp ++ [k]) v vb])
      ++ diffGo pp rest b := by
  rw [diffGo]

theorem mem_of_lookupKey (m : List (String × Value)) (k : String) (v : Value)
    (h : lookupKey k m = some v) : (k, v) ∈ m := by
  induction m with
  | nil => simp [lookupKey] at h
  | cons kv rest ih =>
    obtain ⟨k0, v0⟩ := kv
    by_cases h0 : k0 = k
    · subst h0
      simp [lookupKey] at h
      simp [h]
    · simp only [lookupKey, if_neg h0] at h
      exact List.mem_cons_of_mem _ (ih h)

theorem mem_addedEntries_of (pp : List String) (a b : List (String × Value))
    (k : String) (v : Value)
    (ha : lookupKey k a = none) (hb : lookupKey k b = some v) :
    DiffEntry.added (pp ++ [k]) v ∈ addedEntries pp a b := by
  unfold addedEntries
  refine List.mem_map.mpr ⟨(k, v), ?_, rfl⟩
  rw [List.mem_filter]
  exact ⟨mem_of_lookupKey b k v hb, by simp [ha]⟩

theorem mem_addedEntries_inv (pp : List String) (a b : List (String × Value))
    (e : DiffEntry) (h : e ∈ addedEntries pp a b) :
    ∃ k v, e = .added (pp ++ [k]) v ∧ lookupKey k a = none ∧ (k, v) ∈ b := by
  unfold addedEntries at h
  rw [List.mem_map] at h
  obtain ⟨kv, hkv, rfl⟩ := h
  rw [List.mem_filter] at hkv
  refine ⟨kv.1, kv.2, rfl, ?_, hkv.1⟩
  have := hkv.2
  simpa [Option.isNone_iff_eq_none] using this

theorem deepDiff_added_mem (a b : List (String × Value)) (pp p : List String) (v : Value) :
    (p, v) ∈ (deepDiff a b pp).added
      ↔ DiffEntry.added p v ∈ diffGo pp a b ++ addedEntries pp a b := by
  show (p, v) ∈ (diffGo pp a b ++ addedEntries pp a b).filterMap
      (fun e => match e with | DiffEntry.added p v => some (p, v) | _ => none) ↔ _
  rw [List.mem_filterMap]
  constructor
  · rintro ⟨e, he, hf⟩
    cases e with
    | added p' v' =>
      simp only [Option.some.injEq, Prod.mk.injEq] at hf
      rw [← hf.1, ← hf.2]
      exact he
    | removed p' v' => simp at hf
    | changed p' x y => simp at hf
  · intro h
    exact ⟨_, h, rfl⟩

theorem deepDiff_removed_mem (a b : List (String × Value)) (pp p : List String) (v : Value) :
    (p, v) ∈ (deepDiff a b pp).removed
      ↔ DiffEntry.removed p v ∈ diffGo pp a b ++ addedEntries pp a b := by
  show (p, v) ∈ (diffGo pp a b ++ addedEntries pp a b).filterMap
      (fun e => match e with | DiffEntry.removed p v => some (p, v) | _ => none) ↔ _
  rw [List.mem_filterMap]
  constructor
  · rintro ⟨e, he, hf⟩
    cases e with
    | removed p' v' =>
      simp only [Option.some.injEq, Prod.mk.injEq] at hf
      rw [← hf.1, ← hf.2]
      exact he
    | added p' v' => simp at hf
    | changed p' x y => simp at hf
  · intro h
    exact ⟨_, h, rfl⟩

theorem deepDiff_changed_mem (a b : List (String × Value)) (pp p : List String)
    (x y : Value) :
    (p, x, y) ∈ (deepDiff a b pp).changed
      ↔ DiffEntry.changed p x y ∈ diffGo pp a b ++ addedEntries pp a b := by
  show (p, x, y) ∈ (diffGo pp a b ++ addedEntries pp a b).filterMap
      (fun e => match e with | DiffEntry.changed p x y => some (p, x, y) | _ => none) ↔ _
  rw [List.mem_filterMap]
  constructor
  · rintro ⟨e, he, hf⟩
    cases e with
    | changed p' x' y' =>
      simp only [Option.some.injEq, Prod.mk.injEq] at hf
      rw [← hf.1, ← hf.2.1, ← hf.2.2]
      exact he
    | added p' v' => simp at hf
    | removed p' v' => simp at hf
  · intro h
    exact ⟨_, h, rfl⟩

theorem removed_mem_diffGo (pp : List String) (a b : List (String × Value))
    (k : String) (v : Value)
    (ha : lookupKey k a = some v) (hb : lookupKey k b = none) :
    DiffEntry.removed (pp ++ [k]) v ∈ diffGo pp a b := by
  induction a with
  | nil => simp [lookupKey] at ha
  | cons kv rest ih =>
    obtain ⟨k0, v0⟩ := kv
    rw [diffGo_cons]
    by_cases h0 : k0 = k
    · subst h0
      simp only [lookupKey, eq_self_iff_true, if_true, Option.some.injEq] at ha
      subst ha
      rw [hb]
      exact List.mem_append_left _ (List.mem_singleton_self _)
    · simp only [lookupKey, if_neg h0] at ha
      exact List.mem_append_right _ (ih ha)

theorem changed_mem_diffGo (pp : List String) (a b : List (String × Value))
    (k : String) (va vb : Value)
    (ha : lookupKey k a = some va) (hb : lookupKey k b = some vb)
    (hobj : ¬ bothPlainObjects va vb) (hne : va ≠ vb) :
    DiffEntry.changed (pp ++ [k]) va vb ∈ diffGo pp a b := by
  induction a with
  | nil => simp [lookupKey] at ha
  | cons kv rest ih =>
    obtain ⟨k0, v0⟩ := kv
    rw [diffGo_cons]
    by_cases h0 : k0 = k
    · subst h0
      simp only [lookupKey, eq_self_iff_true, if_true, Option.some.injEq] at ha
      subst ha
      rw [hb]
      apply List.mem_append_left
      cases v0 <;> cases vb <;>
        first
          | exact absurd trivial hobj
          | (simp [hne] <;> exact absurd rfl hne)
    · simp only [lookupKey, if_neg h0] at ha
      exact List.mem_append_right _ (ih ha)

theorem nested_mem_diffGo (pp : List String) (a b : List (String × Value))
    (k : String) (fa fb : List (String × Value))
    (ha : lookupKey k a = some (.vObj fa)) (hb : lookupKey k b = some (.vObj fb)) :
    ∀ e ∈ diffGo (pp ++ [k]) fa fb ++ addedEntries (pp ++ [k]) fa fb,
      e ∈ diffGo pp a b := by
  induction a with
  | nil => simp [lookupKey] at ha
  | cons kv rest ih =>
    obtain ⟨k0, v0⟩ := kv
    rw [diffGo_cons]
    by_cases h0 : k0 = k
    · subst h0
      simp only [lookupKey, eq_self_iff_true, if_true, Option.some.injEq] at ha
      subst ha
      rw [hb]
      intro e he
      exact List.mem_append_left _ he
    · simp only [lookupKey, if_neg h0] at ha
      intro e he
      exact List.mem_append_right _ (ih ha e he)

theorem diffGo_path_shape (pp : List String) (a b : List (String × Value)) :
    ∀ e ∈ diffGo pp a b, ∃ k r, e.path = pp ++ k :: r := by
  induction pp, a, b using diffGo.induct with
  | case1 pp b =>
    intro e he
    rw [diffGo_nil] at he
    simp at he
  | case2 pp b k v rest ih1 ih2 =>
    intro e he
    rw [diffGo_cons] at he
    rcases List.mem_append.mp he with he | he
    · cases hlb : lookupKey k b with
      | none =>
        rw [hlb] at he
        rcases List.mem_singleton.mp he with rfl
        exact ⟨k, [], rfl⟩
      | some vb =>
        rw [hlb] at he
        cases v with
        | vObj fa =>
          cases vb with
          | vObj fb =>
            rcases List.mem_append.mp he with he | he
            · have ihx := ih1 (Value.vObj fb)
              obtain ⟨k', r, hp⟩ := ihx e he
              exact ⟨k, k' :: r, by rw [hp]; simp⟩
            · obtain ⟨k', v', rfl, _, _⟩ := mem_addedEntries_inv _ _ _ _ he
              exact ⟨k, [k'], by simp [DiffEntry.path]⟩
          | vNull =>
            simp only [] at he
            rcases em (Value.vObj fa = Value.vNull) with hv | hv
            · rw [if_pos hv] at he; simp at he
            · rw [if_neg hv] at he
              rcases List.mem_singleton.mp he with rfl
              exact ⟨k, [], rfl⟩
          | vBool x =>
            simp only [] at he
            rcases em (Value.vObj fa = Value.vBool x) with hv | hv
            · rw [if_pos hv] at he; simp at he
            · rw [if_neg hv] at he
              rcases List.mem_singleton.mp he with rfl
              exact ⟨k, [], rfl⟩
          | vNum n =>
            simp only [] at he
            rcases em (Value.vObj fa = Value.vNum n) with hv | hv
            · rw [if_pos hv] at he; simp at he
            · rw [if_neg hv] at he
              rcases List.mem_singleton.mp he with rfl
              exact ⟨k, [], rfl⟩
          | vStr st =>
            simp only [] at he
            rcases em (Value.vObj fa = Value.vStr st) with hv | hv
            · rw [if_pos hv] at he; simp at he
            · rw [if_neg hv] at he
              rcases List.mem_singleton.mp he with rfl
              exact ⟨k, [], rfl⟩
          | vArr rf es =>
            simp only [] at he
            rcases em (Value.vObj fa = Value.vArr rf es) with hv | hv
            · rw [if_pos hv] at he; simp at he
            · rw [if_neg hv] at he
              rcases List.mem_singleton.mp he with rfl
              exact ⟨k, [], rfl⟩
        | vNull =>
          simp only [] at he
          rcases em (Value.vNull = vb) with hv | hv
          · rw [if_pos hv] at he; simp at he
          · rw [if_neg hv] at he
            rcases List.mem_singleton.mp he with rfl
            exact ⟨k, [], rfl⟩
        | vBool x =>
          simp only [] at he
          rcases em (Value.vBool x = vb) with hv | hv
          · rw [if_pos hv] at he; simp at he
          · rw [if_neg hv] at he
            rcases List.mem_singleton.mp he with rfl
            exact ⟨k, [], rfl⟩
        | vNum n =>
          simp only [] at he
          rcases em (Value.vNum n = vb) with hv | hv
          · rw [if_pos hv] at he; simp at he
          · rw [if_neg hv] at he
            rcases List.mem_singleton.mp he with rfl
            exact ⟨k, [], rfl⟩
        | vStr st =>
          simp only [] at he
          rcases em (Value.vStr st = vb) with hv | hv
          · rw [if_pos hv] at he; simp at he
          · rw [if_neg hv] at he
            rcases List.mem_singleton.mp he with rfl
            exact ⟨k, [], rfl⟩
        | vArr rf es =>
          simp only [] at he
          rcases em (Value.vArr rf es = vb) with hv | hv
          · rw [if_pos hv] at he; simp at he
          · rw [if_neg hv] at he
            rcases List.mem_singleton.mp he with rfl
            exact ⟨k, [], rfl⟩
    · exact ih2 e he

theorem bothPlainObjects_iff (x y : Value) :
    bothPlainObjects x y ↔ (∃ f, x = .vObj f) ∧ (∃ g, y = .vObj g) := by
  cases x <;> cases y <;> simp [bothPlainObjects]

theorem changed_leaf_inv (pp : List String) (k : String) (v vb x y : Value) (p : List String)
    (rest b : List (String × Value))
    (hlb : lookupKey k b = some vb)
    (hmem : DiffEntry.changed p x y
      ∈ (if v = vb then [] else [DiffEntry.changed (pp ++ [k]) v vb]))
    (hnotobj : ¬ bothPlainObjects v vb) :
    ∃ k', p = pp ++ [k'] ∧ (k', x) ∈ (k, v) :: rest ∧ lookupKey k' b = some y
      ∧ ¬ bothPlainObjects x y ∧ x ≠ y := by
  rcases em (v = vb) with hv | hv
  · rw [if_pos hv] at hmem
    simp at hmem
  · rw [if_neg hv] at hmem
    have heq := List.mem_singleton.mp hmem
    injection heq with h1 h2 h3
    subst h1
    subst h2
    subst h3
    exact ⟨k, rfl, List.mem_cons_self _ _, hlb, hnotobj, hv⟩

theorem changed_mem_diffGo_inv (pp : List String) (a b : List (String × Value)) :
    ∀ p x y, DiffEntry.changed p x y ∈ diffGo pp a b → p.length = pp.length + 1 →
      ∃ k, p = pp ++ [k] ∧ (k, x) ∈ a ∧ lookupKey k b = some y
        ∧ ¬ bothPlainObjects x y ∧ x ≠ y := by
  induction pp, a, b using diffGo.induct with
  | case1 pp b =>
    intro p x y hmem hlen
    rw [diffGo_nil] at hmem
    simp at hmem
  | case2 pp b k v rest ih1 ih2 =>
    intro p x y hmem hlen
    rw [diffGo_cons] at hmem
    rcases List.mem_append.mp hmem with hmem | hmem
    · cases hlb : lookupKey k b with
      | none =>
        rw [hlb] at hmem
        simp at hmem
      | some vb =>
        rw [hlb] at hmem
        cases v with
        | vObj fa =>
          cases vb with
          | vObj fb =>
            rcases List.mem_append.mp hmem with hmem | hmem
            · obtain ⟨k1, r, hp⟩ := diffGo_path_shape (pp ++ [k]) fa fb _ hmem
              exfalso
              have hp2 : p = (pp ++ [k]) ++ k1 :: r := hp
              rw [hp2] at hlen
              simp [List.length_append] at hlen
            · obtain ⟨k1, v1, heq, _, _⟩ := mem_addedEntries_inv _ _ _ _ hmem
              exact absurd heq (by simp)
          | vNull =>
            simp only [] at hmem
            exact changed_leaf_inv pp k _ _ x y p rest b hlb hmem
              (fun h => by
                rcases (bothPlainObjects_iff _ _).mp h with ⟨_, g, hg⟩
                exact Value.noConfusion hg)
          | vBool bl =>
            simp only [] at hmem
            exact changed_leaf_inv pp k _ _ x y p rest b hlb hmem
              (fun h => by
                rcases (bothPlainObjects_iff _ _).mp h with ⟨_, g, hg⟩
                exact Value.noConfusion hg)
          | vNum n =>
            simp only [] at hmem
            exact changed_leaf_inv pp k _ _ x y p rest b hlb hmem
              (fun h => by
                rcases (bothPlainObjects_iff _ _).mp h with ⟨_, g, hg⟩
                exact Value.noConfusion hg)
          | vStr st =>
            simp only [] at hmem
            exact changed_leaf_inv pp k _ _ x y p rest b hlb hmem
              (fun h => by
                rcases (bothPlainObjects_iff _ _).mp h with ⟨_, g, hg⟩
                exact Value.noConfusion hg)
          | vArr rf es =>
            simp only [] at hmem
            exact changed_leaf_inv pp k _ _ x y p rest b hlb hmem
              (fun h => by
                rcases (bothPlainObjects_iff _ _).mp h with ⟨_, g, hg⟩
                exact Value.noConfusion hg)
        | vNull =>
          simp only [] at hmem
          exact changed_leaf_inv pp k _ _ x y p rest b hlb hmem
            (fun h => by
              rcases (bothPlainObjects_iff _ _).mp h with ⟨⟨f, hf⟩, _⟩
              exact Value.noConfusion hf)
        | vBool bl =>
          simp only [] at hmem
          exact changed_leaf_inv pp k _ _ x y p rest b hlb hmem
            (fun h => by
              rcases (bothPlainObjects_iff _ _).mp h with ⟨⟨f, hf⟩, _⟩
              exact Value.noConfusion hf)
        | vNum n =>
          simp only [] at hmem
          exact changed_leaf_inv pp k _ _ x y p rest b hlb hmem
            (fun h => by
              rcases (bothPlainObjects_iff _ _).mp h with ⟨⟨f, hf⟩, _⟩
              exact Value.noConfusion hf)
        | vStr st =>
          simp only [] at hmem
          exact changed_leaf_inv pp k _ _ x y p rest b hlb hmem
            (fun h => by
              rcases (bothPlainObjects_iff _ _).mp h with ⟨⟨f, hf⟩, _⟩
              exact Value.noConfusion hf)
        | vArr rf es =>
          simp only [] at hmem
          exact changed_leaf_inv pp k _ _ x y p rest b hlb hmem
            (fun h => by
              rcases (bothPlainObjects_iff _ _).mp h with ⟨⟨f, hf⟩, _⟩
              exact Value.noConfusion hf)
    · obtain ⟨k', hp, hmem', hlk, hobj, hne⟩ := ih2 p x y hmem hlen
      exact ⟨k', hp, List.mem_cons_of_mem _ hmem', hlk, hobj, hne⟩

end DiffLemmas

/-- C6: the structural diff used by `branch.diff` (utils.ts
`deepDiff`) records an `added` (resp. `removed`) entry with the full
path for each key present only in the second (resp. first) object;
for keys present in both it recurses exactly when both values are
non-null non-array objects (every nested entry surfacing in the
outer result); and otherwise — arrays included — it records a
`changed` entry with `from`/`to` exactly when the two values are not
directly equal (`Object.is`-style identity: array reference tags
compared, no element-wise array diff). -/
theorem c6_deepDiff_structure (a b : List (String × Value)) (pp : List String) (k : String) :
    (∀ v, lookupKey k a = none → lookupKey k b = some v →
        (pp ++ [k], v) ∈ (deepDiff a b pp).added)
    ∧ (∀ v, lookupKey k a = some v → lookupKey k b = none →
        (pp ++ [k], v) ∈ (deepDiff a b pp).removed)
    ∧ (∀ fa fb, lookupKey k a = some (.vObj fa) → lookupKey k b = some (.vObj fb) →
        (∀ p v, (p, v) ∈ (deepDiff fa fb (pp ++ [k])).added →
            (p, v) ∈ (deepDiff a b pp).added)
        ∧ (∀ p v, (p, v) ∈ (deepDiff fa fb (pp ++ [k])).removed →
            (p, v) ∈ (deepDiff a b pp).removed)
        ∧ (∀ p x y, (p, x, y) ∈ (deepDiff fa fb (pp ++ [k])).changed →
            (p, x, y) ∈ (deepDiff a b pp).changed))
    ∧ (∀ va vb, lookupKey k a = some va → lookupKey k b = some vb →
        ¬ bothPlainObjects va vb →
        ((pp ++ [k], va, vb) ∈ (deepDiff a b pp).changed ↔ va ≠ vb)) := by
  refine ⟨?_, ?_, ?_, ?_⟩
  · intro v ha hb
    rw [deepDiff_added_mem]
    exact List.mem_append_right _ (mem_addedEntries_of pp a b k v ha hb)
  · intro v ha hb
    rw [deepDiff_removed_mem]
    exact List.mem_append_left _ (removed_mem_diffGo pp a b k v ha hb)
  · intro fa fb ha hb
    refine ⟨?_, ?_, ?_⟩
    · intro p v hmem
      rw [deepDiff_added_mem] at hmem ⊢
      exact List.mem_append_left _ (nested_mem_diffGo pp a b k fa fb ha hb _ hmem)
    · intro p v hmem
      rw [deepDiff_removed_mem] at hmem ⊢
      exact List.mem_append_left _ (nested_mem_diffGo pp a b k fa fb ha hb _ hmem)
    · intro p x y hmem
      rw [deepDiff_changed_mem] at hmem ⊢
      exact List.mem_append_left _ (nested_mem_diffGo pp a b k fa fb ha hb _ hmem)
  · intro va vb ha hb hobj
    constructor
    · intro hmem
      rw [deepDiff_changed_mem] at hmem
      rcases List.mem_append.mp hmem with hmem | hmem
      · obtain ⟨k', hp, hmem', hlk, hobj', hne⟩ :=
          changed_mem_diffGo_inv pp a b _ _ _ hmem (by simp)
        exact hne
      · obtain ⟨k1, v1, heq, _, _⟩ := mem_addedEntries_inv _ _ _ _ hmem
        exact absurd heq (by simp)
    · intro hne
      rw [deepDiff_changed_mem]
      exact List.mem_append_left _ (changed_mem_diffGo pp a b k va vb ha hb hobj hne)

/-- C6 witness: on concrete objects, a key only in the second object
is reported `added`, a key only in the first is reported `removed`,
a nested plain-object change surfaces with its full path, and two
arrays with equal elements but different identities produce a single
`changed` entry (no element-wise diff). -/
theorem c6_witness :
    (["new"], Value.vBool true)
      ∈ (deepDiff
          [("a", Value.vNum 1), ("arr", Value.vArr 0 [Value.vNum 1]),
            ("o", Value.vObj [("x", Value.vNum 1)]), ("gone", Value.vStr "g")]
          [("a", Value.vNum 1), ("arr", Value.vArr 1 [Value.vNum 1]),
            ("o", Value.vObj [("x", Value.vNum 3)]), ("new", Value.vBool true)]
          []).added
    ∧ (["gone"], Value.vStr "g")
      ∈ (deepDiff
          [("a", Value.vNum 1), ("arr", Value.vArr 0 [Value.vNum 1]),
            ("o", Value.vObj [("x", Value.vNum 1)]), ("gone", Value.vStr "g")]
          [("a", Value.vNum 1), ("arr", Value.vArr 1 [Value.vNum 1]),
            ("o", Value.vObj [("x", Value.vNum 3)]), ("new", Value.vBool true)]
          []).removed
    ∧ (["o", "x"], Value.vNum 1, Value.vNum 3)
      ∈ (deepDiff
          [("a", Value.vNum 1), ("arr", Value.vArr 0 [Value.vNum 1]),
            ("o", Value.vObj [("x", Value.vNum 1)]), ("gone", Value.vStr "g")]
          [("a", Value.vNum 1), ("arr", Value.vArr 1 [Value.vNum 1]),
            ("o", Value.vObj [("x", Value.vNum 3)]), ("new", Value.vBool true)]
          []).changed
    ∧ (["arr"], Value.vArr 0 [Value.vNum 1], Value.vArr 1 [Value.vNum 1])
      ∈ (deepDiff
          [("a", Value.vNum 1), ("arr", Value.vArr 0 [Value.vNum 1]),
            ("o", Value.vObj [("x", Value.vNum 1)]), ("gone", Value.vStr "g")]
          [("a", Value.vNum 1), ("arr", Value.vArr 1 [Value.vNum 1]),
            ("o", Value.vObj [("x", Value.vNum 3)]), ("new", Value.vBool true)]
          []).changed := by
  refine ⟨?_, ?_, ?_, ?_⟩
  · exact (c6_deepDiff_structure _ _ [] "new").1 (Value.vBool true) (by decide) (by decide)
  · exact (c6_deepDiff_structure _ _ [] "gone").2.1 (Value.vStr "g") (by decide) (by decide)
  · exact ((c6_deepDiff_structure _ _ [] "o").2.2.1 [("x", Value.vNum 1)]
      [("x", Value.vNum 3)] (by decide) (by decide)).2.2 ["o", "x"]
      (Value.vNum 1) (Value.vNum 3)
      (((c6_deepDiff_structure [("x", Value.vNum 1)] [("x", Value.vNum 3)] ["o"] "x").2.2.2
        (Value.vNum 1) (Value.vNum 3) (by decide) (by decide) (by decide)).mpr (by decide))
  · exact ((c6_deepDiff_structure _ _ [] "arr").2.2.2 (Value.vArr 0 [Value.vNum 1])
      (Value.vArr 1 [Value.vNum 1]) (by decide) (by decide) (by decide)).mpr (by decide)

/-- C1 witness: two changing increments on a fresh counter store,
then `back()` twice, restore the initial data `0` and position
`0`. -/
theorem c1_witness :
    (temporalBack (storeMutateSeq (storeInit (0 : Int) DEFAULT_CONFIG 0)
        [fun n => n + 1, fun n => n + 10]) 2).data = 0
    ∧ (getTravels (temporalBack (storeMutateSeq (storeInit (0 : Int) DEFAULT_CONFIG 0)
        [fun n => n + 1, fun n => n + 10]) 2)).position = 0 := by
  have h := c1_invertibility_amended (storeInit (0 : Int) DEFAULT_CONFIG 0)
    [fun n => n + 1, fun n => n + 10] rfl rfl (by decide)
    ⟨by decide, by decide, trivial⟩ (by decide)
  exact ⟨h.1.trans (by decide), h.2⟩

end StateSdk
